import Mathlib

/-!
Shallow embedding of the ensemble registry of src/generic/itclEnsemble.c.

Strings are modelled as lists of characters (C strings are NUL-terminated
byte arrays; the terminator is represented by the end of the list, and a
list never contains an interior terminator because C strings cannot).
The part store of one ensemble (EnsemblePart **parts + numParts) is a
List EnsemblePart; maxParts and the growth of the backing array do not
affect the stored values and are not modelled.  Host (Tcl) facilities are
modelled at their interface, as the specification directs.
-/

namespace Itcl

/-- Value of the first byte of a C string: the first character, or the
terminator (code 0) for the empty string.  Models the expression (*p). -/
def firstChar (s : List Char) : Char := s.headD (Char.ofNat 0)

/-- Result of strcmp on two NUL-free C strings, as an Ordering. -/
def strcmp : List Char → List Char → Ordering
  | [], [] => .eq
  | [], _ :: _ => .lt
  | _ :: _, [] => .gt
  | a :: as, b :: bs =>
    if a < b then .lt else if b < a then .gt else strcmp as bs

/-- Result of strncmp over the first n characters, as an Ordering. -/
def strncmp : Nat → List Char → List Char → Ordering
  | 0, _, _ => .eq
  | _ + 1, [], [] => .eq
  | _ + 1, [], _ :: _ => .lt
  | _ + 1, _ :: _, [] => .gt
  | n + 1, a :: as, b :: bs =>
    if a < b then .lt else if b < a then .gt else strncmp n as bs

/-- Length of the common leading-character run of two strings.  Models the
counting loop of ComputeMinChars, whose condition (*p == *q && *p != 0 &&
*q != 0) stops at the first mismatch or at the end of either string. -/
def commonLen : List Char → List Char → Nat
  | a :: as, b :: bs => if a = b then commonLen as bs + 1 else 0
  | _, _ => 0

/-- Comparison step of the binary search of FindEnsemblePartIndex: the
code first compares the first bytes and only calls strcmp when they agree. -/
def cCmp (p q : List Char) : Ordering :=
  if firstChar p = firstChar q then strcmp p q
  else if firstChar p < firstChar q then .lt
  else .gt

/-- Comparison step of the binary search of FindEnsemblePart: first bytes
first, then strncmp over the length of the searched name. -/
def cnCmp (nlen : Nat) (p q : List Char) : Ordering :=
  if firstChar p = firstChar q then strncmp nlen p q
  else if firstChar p < firstChar q then .lt
  else .gt

section CmpLemmas

theorem strcmp_self (a : List Char) : strcmp a a = .eq := by
  induction a with
  | nil => rfl
  | cons x xs ih => simp [strcmp, ih]

theorem strcmp_eq_iff {a b : List Char} : strcmp a b = .eq ↔ a = b := by
  induction a generalizing b with
  | nil => cases b <;> simp [strcmp]
  | cons x xs ih =>
    cases b with
    | nil => simp [strcmp]
    | cons y ys =>
      by_cases hxy : x < y
      · simp [strcmp, hxy]
        rintro rfl
        exact absurd hxy (lt_irrefl x)
      · by_cases hyx : y < x
        · simp [strcmp, hxy, hyx]
          rintro rfl
          exact absurd hyx (lt_irrefl x)
        · have hx : x = y := le_antisymm (not_lt.mp hyx) (not_lt.mp hxy)
          subst hx
          simp [strcmp, ih]

theorem strcmp_swap {a b : List Char} : strcmp a b = .lt ↔ strcmp b a = .gt := by
  induction a generalizing b with
  | nil => cases b <;> simp [strcmp]
  | cons x xs ih =>
    cases b with
    | nil => simp [strcmp]
    | cons y ys =>
      by_cases hxy : x < y
      · have : ¬ y < x := not_lt.mpr (le_of_lt hxy)
        simp [strcmp, hxy, this]
      · by_cases hyx : y < x
        · simp [strcmp, hxy, hyx]
        · have hx : x = y := le_antisymm (not_lt.mp hyx) (not_lt.mp hxy)
          subst hx
          simp [strcmp, ih]

theorem strcmp_trans {a b c : List Char}
    (hab : strcmp a b = .lt) (hbc : strcmp b c = .lt) : strcmp a c = .lt := by
  induction a generalizing b c with
  | nil =>
    cases c with
    | nil =>
      cases b with
      | nil => exact hab
      | cons y ys => simp [strcmp] at hbc
    | cons z zs => simp [strcmp]
  | cons x xs ih =>
    cases b with
    | nil => simp [strcmp] at hab
    | cons y ys =>
      cases c with
      | nil => simp [strcmp] at hbc
      | cons z zs =>
        simp only [strcmp] at hab hbc ⊢
        by_cases hxy : x < y
        · by_cases hyz : y < z
          · simp [lt_trans hxy hyz]
          · by_cases hzy : z < y
            · simp [hyz, hzy] at hbc
            · have : y = z := le_antisymm (not_lt.mp hzy) (not_lt.mp hyz)
              subst this
              simp [hxy]
        · by_cases hyx : y < x
          · simp [hxy, hyx] at hab
          · have : x = y := le_antisymm (not_lt.mp hyx) (not_lt.mp hxy)
            subst this
            simp only [hxy, if_neg (lt_irrefl x), if_neg hxy] at hab
            by_cases hyz : x < z
            · simp [hyz]
            · by_cases hzy : z < x
              · simp [hyz, hzy] at hbc
              · have : x = z := le_antisymm (not_lt.mp hzy) (not_lt.mp hyz)
                subst this
                simp only [if_neg (lt_irrefl x)] at hbc ⊢
                exact ih hab hbc

theorem strcmp_eq_of_eq {a b : List Char} (h : a = b) : strcmp a b = .eq := by
  subst h; exact strcmp_self a

/-- Strict lexicographic order used by the part store, as a named relation. -/
def sLt (a b : List Char) : Prop := strcmp a b = .lt

theorem sLt_irrefl (a : List Char) : ¬ sLt a a := by
  simp [sLt, strcmp_self]

theorem sLt_trans {a b c : List Char} (h1 : sLt a b) (h2 : sLt b c) : sLt a c :=
  strcmp_trans h1 h2

theorem sLt_ne {a b : List Char} (h : sLt a b) : a ≠ b := by
  rintro rfl; exact sLt_irrefl a h

/-- Trichotomy for strcmp results. -/
theorem strcmp_cases (a b : List Char) :
    strcmp a b = .lt ∨ strcmp a b = .eq ∨ strcmp a b = .gt := by
  cases h : strcmp a b
  · exact Or.inl rfl
  · exact Or.inr (Or.inl rfl)
  · exact Or.inr (Or.inr rfl)

/-- No character compares below the NUL terminator. -/
theorem not_lt_char_zero (c : Char) : ¬ c < Char.ofNat 0 := by
  intro h
  have hv : c.val < (Char.ofNat 0).val := h
  have hz : (Char.ofNat 0).val = 0 := rfl
  rw [hz] at hv
  have : c.val.toNat < (0 : UInt32).toNat := hv
  simp at this

/-- The first-byte fast path of the binary-search comparison agrees with
plain strcmp (interior NUL bytes cannot occur in a C string). -/
theorem cCmp_eq_strcmp (p q : List Char) : cCmp p q = strcmp p q := by
  cases p with
  | nil =>
    cases q with
    | nil => rfl
    | cons y ys =>
      rcases lt_trichotomy (Char.ofNat 0) y with hlt | heq | hgt
      · simp [cCmp, firstChar, strcmp, ne_of_lt hlt, hlt]
      · subst heq; simp [cCmp, firstChar, strcmp]
      · exact absurd hgt (not_lt_char_zero y)
  | cons x xs =>
    cases q with
    | nil =>
      by_cases hx : x = Char.ofNat 0
      · simp [cCmp, firstChar, strcmp, hx]
      · simp [cCmp, firstChar, strcmp, hx, not_lt_char_zero x]
    | cons y ys =>
      by_cases hxy : x = y
      · subst hxy; simp [cCmp, firstChar, strcmp]
      · by_cases hlt : x < y
        · simp [cCmp, firstChar, strcmp, hxy, hlt]
        · have hyx : y < x := by
            rcases lt_trichotomy x y with h | h | h
            · exact absurd h hlt
            · exact absurd h hxy
            · exact h
          simp [cCmp, firstChar, strcmp, hxy, hlt, hyx]

end CmpLemmas

/-- One part of an ensemble (struct EnsemblePart).  Host-pointer fields are
modelled by the facts the code extracts from them: cmdValid stands for
Tcl_GetCommandInfoFromToken(cmdPtr, ...) returning 1, isEns for cmdPtr being
non-NULL and Tcl_IsEnsemble holding, hasDeleteProc for the registered
deleteProc and deleteData both being non-NULL.  namePtr, objProc, clientData
and arglistPtr carry no behaviour that the verified claims observe. -/
structure EnsemblePart where
  name : List Char
  minChars : Nat
  usage : List Char
  isEns : Bool
  cmdValid : Bool
  hasDeleteProc : Bool
deriving DecidableEq, Repr, Inhabited

/-- Name stored at index i of the part list (ensData->parts[i]->name). -/
def partNameAt (parts : List EnsemblePart) (i : Nat) : List Char :=
  (parts.getD i default).name

/-- Binary-search loop of FindEnsemblePartIndex.  The C loop carries int
first/last with last possibly -1; here lastP1 carries last + 1 as a Nat, so
the loop guard last >= first becomes first < lastP1 and the probe
(first+last)/2 becomes (first + lastP1 - 1)/2 (identical values, both
operands nonnegative in every reachable state of the C loop).  Returns the
pair (found, pos): on found, pos is the matching index, otherwise pos is the
value of first at exit, the insertion point.  The fuel argument only bounds
the number of iterations (each iteration shrinks lastP1 - first, so that
difference is enough fuel, and with enough fuel the 0 case is reached only
when the loop guard is already false, exactly as in the C loop). -/
def findIndexLoop (parts : List EnsemblePart) (nm : List Char) :
    Nat → Nat → Nat → Bool × Nat
  | fuel + 1, first, lastP1 =>
    if first < lastP1 then
      match cCmp nm (partNameAt parts ((first + lastP1 - 1) / 2)) with
      | .eq => (true, (first + lastP1 - 1) / 2)
      | .gt => findIndexLoop parts nm fuel ((first + lastP1 - 1) / 2 + 1) lastP1
      | .lt => findIndexLoop parts nm fuel first ((first + lastP1 - 1) / 2)
    else (false, first)
  | 0, first, _ => (false, first)

/-- FindEnsemblePartIndex: exact binary search over the whole store. -/
def findEnsemblePartIndex (parts : List EnsemblePart) (nm : List Char) :
    Bool × Nat :=
  findIndexLoop parts nm parts.length 0 parts.length

/-- Abbreviation width after the left-neighbor block of ComputeMinChars:
start from 1 and raise to the common run with the part at pos-1 plus one
when that neighbor exists. -/
def mcLeft (parts : List EnsemblePart) (pos : Nat) : Nat :=
  if 1 ≤ pos then
    max 1 (commonLen (partNameAt parts pos) (partNameAt parts (pos - 1)) + 1)
  else 1

/-- Abbreviation width after the right-neighbor block: raise further to the
common run with the part at pos+1 plus one when that neighbor exists. -/
def mcBoth (parts : List EnsemblePart) (pos : Nat) : Nat :=
  if pos + 1 < parts.length then
    max (mcLeft parts pos)
      (commonLen (partNameAt parts pos) (partNameAt parts (pos + 1)) + 1)
  else mcLeft parts pos

/-- Value ComputeMinChars assigns at a valid position: the neighbor-derived
width, clamped to the length of the name. -/
def minCharsValue (parts : List EnsemblePart) (pos : Nat) : Nat :=
  min (mcBoth parts pos) (partNameAt parts pos).length

/-- ComputeMinChars: no-op when pos is out of range (the function is called
with pos-1 and pos+1 as well, which may fall outside the store), otherwise
update minChars of the part at pos. -/
def ComputeMinChars (parts : List EnsemblePart) (pos : Int) : List EnsemblePart :=
  if pos < 0 ∨ (parts.length : Int) ≤ pos then parts
  else
    let p := pos.toNat
    parts.set p { parts.getD p default with minChars := minCharsValue parts p }

/-- Shift-up loop of CreateEnsemblePart followed by the write at pos. -/
def insertAt (parts : List EnsemblePart) (pos : Nat) (part : EnsemblePart) :
    List EnsemblePart :=
  parts.take pos ++ part :: parts.drop pos

/-- Freshly allocated part (ckalloc + memset 0, then the name is copied and
the ensemble back-pointer set): every other field is zero/NULL. -/
def newPart (nm : List Char) : EnsemblePart :=
  { name := nm, minChars := 0, usage := [], isEns := false,
    cmdValid := false, hasDeleteProc := false }

/-- CreateEnsemblePart: refuse an exact duplicate (store untouched),
otherwise insert at the binary-search insertion point and recompute the
abbreviation width of the new part and of both its neighbors.  Returns the
new store and the position of the new part; none models TCL_ERROR. -/
def CreateEnsemblePart (parts : List EnsemblePart) (partName : List Char) :
    Option (List EnsemblePart × Nat) :=
  let fp := findEnsemblePartIndex parts partName
  if fp.1 then none
  else
    let pos := fp.2
    let parts1 := insertAt parts pos (newPart partName)
    let parts2 := ComputeMinChars parts1 (pos : Int)
    let parts3 := ComputeMinChars parts2 ((pos : Int) - 1)
    let parts4 := ComputeMinChars parts3 ((pos : Int) + 1)
    some (parts4, pos)

/-- DeleteEnsemblePart: if the part's command info is unavailable the
function returns before touching the store; otherwise the registered
destructor runs (when present), and the part is removed from its ensemble's
store by exact-name search (shift-down loop plus numParts--).  The second
component records the destructor invocations, in order. -/
def DeleteEnsemblePart (parts : List EnsemblePart) (ensPart : EnsemblePart) :
    List EnsemblePart × List (List Char) :=
  if ensPart.cmdValid = false then (parts, [])
  else
    let evs := if ensPart.hasDeleteProc then [ensPart.name] else []
    let fp := findEnsemblePartIndex parts ensPart.name
    if fp.1 then (parts.take fp.2 ++ parts.drop (fp.2 + 1), evs)
    else (parts, evs)

/-- Result status of AddEnsemblePart. -/
inductive AddStatus
  | ok
  | dupErr
  | installErr
deriving DecidableEq, Repr

/-- AddEnsemblePart: create the part, record the usage string on it, then
create the host command for it (Tcl_CreateObjCommand, whose success the
caller's host controls, modelled by installOk).  When the host command
cannot be created the function returns TCL_ERROR; the store is returned as
the code leaves it. -/
def AddEnsemblePart (parts : List EnsemblePart) (partName usageInfo : List Char)
    (installOk : Bool) : AddStatus × List EnsemblePart :=
  match CreateEnsemblePart parts partName with
  | none => (.dupErr, parts)
  | some (parts1, pos) =>
    let parts2 := parts1.set pos
      { parts1.getD pos default with usage := usageInfo }
    if installOk then (.ok, parts2) else (.installErr, parts2)

/-- One mutation of a part store: an insertion (CreateEnsemblePart) or a
removal (DeleteEnsemblePart). -/
inductive StoreOp
  | ins (nm : List Char)
  | del (p : EnsemblePart)

/-- Apply one mutation; a failed insertion leaves the store unchanged. -/
def applyOp (parts : List EnsemblePart) : StoreOp → List EnsemblePart
  | .ins nm =>
    match CreateEnsemblePart parts nm with
    | none => parts
    | some (parts1, _) => parts1
  | .del p => (DeleteEnsemblePart parts p).1

/-- Part store reached from an empty ensemble by a sequence of mutations. -/
def runOps (ops : List StoreOp) : List EnsemblePart :=
  ops.foldl applyOp []

/-- Part store reached from an empty ensemble by insertions only. -/
def runInserts (nms : List (List Char)) : List EnsemblePart :=
  runOps (nms.map .ins)

/-- The store is in strictly increasing lexicographic order by part name. -/
def SortedStore (parts : List EnsemblePart) : Prop :=
  parts.Pairwise (fun p q => sLt p.name q.name)

instance (a b : List Char) : Decidable (sLt a b) := by
  unfold sLt; infer_instance

instance (parts : List EnsemblePart) : Decidable (SortedStore parts) := by
  unfold SortedStore
  exact List.instDecidablePairwise parts

/-- Binary-search loop of FindEnsemblePart, matching only the first nlen
characters (same int-to-Nat reindexing as findIndexLoop).  Returns the index
at which the loop broke with a match, or none when no entry matched.  The
fuel argument bounds the iterations as in findIndexLoop. -/
def findPartLoop (parts : List EnsemblePart) (nm : List Char) (nlen : Nat) :
    Nat → Nat → Nat → Option Nat
  | fuel + 1, first, lastP1 =>
    if first < lastP1 then
      match cnCmp nlen nm (partNameAt parts ((first + lastP1 - 1) / 2)) with
      | .eq => some ((first + lastP1 - 1) / 2)
      | .gt => findPartLoop parts nm nlen fuel ((first + lastP1 - 1) / 2 + 1)
          lastP1
      | .lt => findPartLoop parts nm nlen fuel first ((first + lastP1 - 1) / 2)
    else none
  | 0, _, _ => none

/-- Backward scan of FindEnsemblePart: while the previous entry still
matches the first nlen characters, move to it (finds the top-most match). -/
def backWalk (parts : List EnsemblePart) (nm : List Char) (nlen : Nat) :
    Nat → Nat
  | 0 => 0
  | pos + 1 =>
    if strncmp nlen nm (partNameAt parts pos) ≠ .eq then pos + 1
    else backWalk parts nm nlen pos

/-- Forward scan of FindEnsemblePart collecting every consecutive entry that
matches the first nlen characters (the ambiguity candidates). -/
def collectFrom (parts : List EnsemblePart) (nm : List Char) (nlen pos : Nat) :
    List EnsemblePart :=
  (parts.drop pos).takeWhile (fun p => strncmp nlen nm p.name = .eq)

/-- Outcome of FindEnsemblePart: TCL_ERROR with the ambiguity candidates,
TCL_OK with a null part, or TCL_OK with the matched part. -/
inductive FindPartResult
  | err (cands : List EnsemblePart)
  | okNone
  | okPart (p : EnsemblePart)
deriving DecidableEq, Repr

/-- FindEnsemblePart: abbreviation-aware search.  Binary search on the first
len(partName) characters; if the match requires more characters than given,
scan back to the top-most match; if that one also requires more characters,
the name is ambiguous and the candidate run is reported (TCL_ERROR). -/
def FindEnsemblePart (parts : List EnsemblePart) (partName : List Char) :
    FindPartResult :=
  let nlen := partName.length
  match findPartLoop parts partName nlen parts.length 0 parts.length with
  | none => .okNone
  | some pos0 =>
    let pos := if nlen < (parts.getD pos0 default).minChars then
        backWalk parts partName nlen pos0 else pos0
    if nlen < (parts.getD pos default).minChars then
      .err (collectFrom parts partName nlen pos)
    else
      .okPart (parts.getD pos default)

/-- Tcl_DStringAppendElement on buffers whose elements need no list quoting
(host interface): a separating space is added only when the buffer is
nonempty. -/
def appendElement (buf el : List Char) : List Char :=
  if buf = [] then el else buf ++ ' ' :: el

/-- GetEnsemblePartUsage.  The trail loop walks from the part up through
part->ensemble->parent and then prints the top-level command name followed
by the gateway part names; rootName and trailNames are the result of that
walk for the ensemble holding the part (trailNames is empty for a top-level
ensemble).  After the trail comes the stored usage string, or the fixed
ensemble suffix when the part's command is itself an ensemble. -/
def GetEnsemblePartUsage (rootName : List Char) (trailNames : List (List Char))
    (p : EnsemblePart) : List Char :=
  let buf := (trailNames ++ [p.name]).foldl appendElement
    (appendElement [] rootName)
  if p.usage ≠ [] then buf ++ ' ' :: p.usage
  else if p.isEns then buf ++ (" option ?arg arg ...?".toList)
  else buf

/-- Loop of GetEnsembleUsage: returns the rendered lines and the
isOpenEnded flag.  A part named "@error" only raises the flag (the test
(*name == at-sign) && strcmp(name, "@error") == 0 is name equality); a part
named "@itcl-builtin_info" is skipped; every other part is rendered behind
the current separator, and the separator becomes newline + two spaces. -/
def GetEnsembleUsageLoop (rootName : List Char) (trailNames : List (List Char))
    (parts : List EnsemblePart) (spaces : List Char) : List Char × Bool :=
  match parts with
  | [] => ([], false)
  | p :: rest =>
    if p.name = "@error".toList then
      let r := GetEnsembleUsageLoop rootName trailNames rest spaces
      (r.1, true)
    else if p.name = "@itcl-builtin_info".toList then
      GetEnsembleUsageLoop rootName trailNames rest spaces
    else
      let r := GetEnsembleUsageLoop rootName trailNames rest ("\n  ".toList)
      (spaces ++ GetEnsemblePartUsage rootName trailNames p ++ r.1, r.2)

/-- GetEnsembleUsage: render the summary of every part, appending the
open-ended trailer when an "@error" part was seen. -/
def GetEnsembleUsage (rootName : List Char) (trailNames : List (List Char))
    (parts : List EnsemblePart) : List Char :=
  let r := GetEnsembleUsageLoop rootName trailNames parts ("  ".toList)
  r.1 ++ (if r.2 then "\n...and others described on the man page".toList else [])

/-- Itcl_EnsembleErrorCmd: builds the bad-option message from its first
argument word and the ensemble summary, and returns TCL_ERROR with it. -/
def Itcl_EnsembleErrorCmd (rootName : List Char) (trailNames : List (List Char))
    (parts : List EnsemblePart) (cmdName : List Char) : List Char :=
  "bad option \"".toList ++ cmdName ++ "\": should be one of...\n".toList
    ++ GetEnsembleUsage rootName trailNames parts

/-- Message FindEnsemblePart leaves as the result on an ambiguous name. -/
def ambiguousErrorMsg (rootName : List Char) (trailNames : List (List Char))
    (partName : List Char) (cands : List EnsemblePart) : List Char :=
  "ambiguous option \"".toList ++ partName ++ "\": should be one of...".toList
    ++ (cands.map
        (fun p => "\n  ".toList ++ GetEnsemblePartUsage rootName trailNames p)).flatten

/-- Outcome of the ensemble unknown handler: TCL_ERROR with the message left
in the interpreter, or TCL_OK with the redirect list. -/
inductive UnknownRes
  | err (msg : List Char)
  | ok (redirect : List (List Char))
deriving DecidableEq, Repr

/-- EnsembleUnknownCmd on a registered ensemble (the command lookup and the
hash-table lookup of objv[1] have succeeded and produced this ensemble's
data; rootName/trailNames identify it for message rendering).  With fewer
than 3 words it reports a usage error; otherwise it looks up "@error"
through FindEnsemblePart: an ambiguous lookup propagates TCL_ERROR (with
the ambiguity message), a found part produces the OK redirect list
(objv[1], "@error", objv[2]), and no part at all yields the bad-option
error built by Itcl_EnsembleErrorCmd on objv+2. -/
def EnsembleUnknownCmd (rootName : List Char) (trailNames : List (List Char))
    (parts : List EnsemblePart) (objv : List (List Char)) : UnknownRes :=
  if objv.length < 3 then
    .err ("wrong # args: should be one of...\n".toList
      ++ GetEnsembleUsage rootName trailNames parts)
  else
    match FindEnsemblePart parts ("@error".toList) with
    | .err cands =>
      .err (ambiguousErrorMsg rootName trailNames ("@error".toList) cands)
    | .okPart _ => .ok [objv.getD 1 [], "@error".toList, objv.getD 2 []]
    | .okNone =>
      .err (Itcl_EnsembleErrorCmd rootName trailNames parts (objv.getD 2 []))

/-- Loop of DeleteEnsemble: keep deleting the first remaining part.  The
fuel argument bounds the iterations; when an iteration removes nothing
(DeleteEnsemblePart returned early because the part's command info was
unavailable) the C loop never terminates, modelled as none.  Accumulates
the destructor invocations of the deleted parts. -/
def DeleteEnsembleLoop : Nat → List EnsemblePart → List (List Char) →
    Option (List (List Char))
  | _, [], evs => some evs
  | 0, _ :: _, _ => none
  | fuel + 1, p :: rest, evs =>
    let r := DeleteEnsemblePart (p :: rest) p
    if r.1.length < (p :: rest).length then DeleteEnsembleLoop fuel r.1 (evs ++ r.2)
    else none

/-- DeleteEnsemble, invoked as the destructor of the ensemble's access
command: deletes every part (first component: the destructor invocations,
none when the loop cannot finish), then frees the parts array and the
record.  The function contains no operation on the registry's ensembles
hash table, so the registry (handle -> ensemble id) is returned as given. -/
def DeleteEnsemble (registry : List (Nat × Nat)) (parts : List EnsemblePart) :
    Option (List (List Char)) × List (Nat × Nat) :=
  (DeleteEnsembleLoop parts.length parts [], registry)

/-- Ensemble-parser state (struct EnsembleParser): the current-ensemble
field ensData, and the rest of the world the nested evaluation can touch
(master/parser interpreter state, the registry, the stores), abstracted as
one value of an arbitrary type. -/
structure EnsContext (E σ : Type) where
  ensData : Option E
  rest : σ

/-- Itcl_EnsembleCmd.  The argument checks and the find-or-create of the
target ensemble (lines up to the save of ensInfo->ensData) never write
ensInfo->ensData; resolve captures them, with none for every early
TCL_ERROR return.  On success the current ensemble is saved, replaced by
the target, the body is evaluated (evalBody is arbitrary: it may reenter
this very command and change the context at will), and the saved value is
written back before returning the evaluation status. -/
def Itcl_EnsembleCmd {E σ : Type} (resolve : EnsContext E σ → Option E)
    (evalBody : EnsContext E σ → EnsContext E σ × Bool)
    (ctx : EnsContext E σ) : EnsContext E σ × Bool :=
  match resolve ctx with
  | none => (ctx, false)
  | some ensData =>
    let savedEnsData := ctx.ensData
    let ctx1 := { ctx with ensData := some ensData }
    let r := evalBody ctx1
    ({ r.1 with ensData := savedEnsData }, r.2)

/-- Itcl_GetEnsemblePart.  The interpreter's evaluation state (type sigma)
is saved on entry (Itcl_SaveInterpState); the four fallible steps are
Tcl_SplitList, FindEnsemble (a NULL ensemble folded into none), the
FindEnsemblePart probe (a NULL part folded into none) and
Tcl_GetCommandInfoFromToken; each failure restores the saved state and
returns 0 (none), success discards the saved state and returns 1 with the
command info. -/
def Itcl_GetEnsemblePart {σ α ε π κ : Type} (splitList : σ → σ × Option α)
    (findEnsemble : σ → α → σ × Option ε) (findPart : σ → ε → σ × Option π)
    (getCmdInfo : π → Option κ) (s0 : σ) : σ × Option κ :=
  let state := s0
  match splitList s0 with
  | (_, none) => (state, none)
  | (s1, some names) =>
    match findEnsemble s1 names with
    | (_, none) => (state, none)
    | (s2, some ens) =>
      match findPart s2 ens with
      | (_, none) => (state, none)
      | (s3, some part) =>
        match getCmdInfo part with
        | none => (state, none)
        | some info => (s3, some info)

/-- Itcl_GetEnsembleUsage: same probing discipline; on success the summary
of the resolved ensemble (root name, trail, parts) is appended to the
caller's object and 1 is returned. -/
def Itcl_GetEnsembleUsage {σ α : Type} (splitList : σ → σ × Option α)
    (findEnsemble :
      σ → α → σ × Option (List Char × List (List Char) × List EnsemblePart))
    (objPtr : List Char) (s0 : σ) : σ × Option (List Char) :=
  let state := s0
  match splitList s0 with
  | (_, none) => (state, none)
  | (s1, some names) =>
    match findEnsemble s1 names with
    | (_, none) => (state, none)
    | (s2, some ens) =>
      (s2, some (objPtr ++ GetEnsembleUsage ens.1 ens.2.1 ens.2.2))

section ListHelpers

variable {α : Type} {d : α}

theorem getD_append_left {l1 l2 : List α} {i : Nat} (h : i < l1.length) :
    (l1 ++ l2).getD i d = l1.getD i d := by
  simp [List.getD_eq_getElem?_getD, List.getElem?_append, h]

theorem getD_append_right {l1 l2 : List α} {i : Nat} (h : l1.length ≤ i) :
    (l1 ++ l2).getD i d = l2.getD (i - l1.length) d := by
  simp [List.getD_eq_getElem?_getD, List.getElem?_append_right h]

theorem getD_set_ne {l : List α} {i j : Nat} {a : α} (h : i ≠ j) :
    (l.set i a).getD j d = l.getD j d := by
  simp [List.getD_eq_getElem?_getD, List.getElem?_set_ne h]

theorem getD_set_self {l : List α} {i : Nat} {a : α} (h : i < l.length) :
    (l.set i a).getD i d = a := by
  simp [List.getD_eq_getElem?_getD, List.getElem?_set_self, h]

theorem getD_of_le {l : List α} {i : Nat} (h : l.length ≤ i) :
    l.getD i d = d := by
  simp [List.getD_eq_getElem?_getD, List.getElem?_eq_none (by omega : l.length ≤ i)]

theorem getD_mem' {l : List α} {i : Nat} (h : i < l.length) : l.getD i d ∈ l := by
  rw [List.getD_eq_getElem l d h]
  exact l.getElem_mem h

theorem drop_eq_getD_cons {l : List α} {i : Nat} (h : i < l.length) :
    l.drop i = l.getD i d :: l.drop (i + 1) := by
  rw [List.getD_eq_getElem l d h]
  exact List.drop_eq_getElem_cons h

theorem pairwise_getD {R : α → α → Prop} {l : List α} (hp : l.Pairwise R)
    {i j : Nat} (hij : i < j) (hj : j < l.length) :
    R (l.getD i d) (l.getD j d) := by
  rw [List.getD_eq_getElem l d (lt_trans hij hj), List.getD_eq_getElem l d hj]
  exact List.pairwise_iff_getElem.mp hp i j (lt_trans hij hj) hj hij

theorem getD_drop' (l : List α) (n i : Nat) :
    (l.drop n).getD i d = l.getD (n + i) d := by
  simp [List.getD_eq_getElem?_getD, List.getElem?_drop]

theorem getD_map {β : Type} (f : α → β) {l : List α} {i : Nat}
    (h : i < l.length) (db : β) (d' : α) :
    (l.map f).getD i db = f (l.getD i d') := by
  rw [List.getD_eq_getElem _ db (by simpa using h), List.getD_eq_getElem l d' h]
  simp

end ListHelpers

section StoreLemmas

/-- Names are unaffected by the minChars recomputation. -/
theorem partNameAt_ComputeMinChars (parts : List EnsemblePart) (q : Int)
    (i : Nat) : partNameAt (ComputeMinChars parts q) i = partNameAt parts i := by
  unfold ComputeMinChars
  split
  · rfl
  · rename_i hq
    push_neg at hq
    by_cases hi : i = q.toNat
    · subst hi
      unfold partNameAt
      rw [getD_set_self]
      omega
    · unfold partNameAt
      rw [getD_set_ne (Ne.symm hi)]

theorem length_ComputeMinChars (parts : List EnsemblePart) (q : Int) :
    (ComputeMinChars parts q).length = parts.length := by
  unfold ComputeMinChars
  split
  · rfl
  · simp

/-- ComputeMinChars leaves every entry other than the target untouched. -/
theorem getD_ComputeMinChars_ne (parts : List EnsemblePart) (q : Int)
    (i : Nat) (h : (i : Int) ≠ q) (d : EnsemblePart) :
    (ComputeMinChars parts q).getD i d = parts.getD i d := by
  unfold ComputeMinChars
  split
  · rfl
  · rename_i hq
    push_neg at hq
    exact getD_set_ne (by omega)

/-- ComputeMinChars stores exactly minCharsValue at an in-range target. -/
theorem getD_ComputeMinChars_self (parts : List EnsemblePart) (q : Nat)
    (h : q < parts.length) (d : EnsemblePart) :
    (ComputeMinChars parts (q : Int)).getD q d
      = { parts.getD q default with minChars := minCharsValue parts q } := by
  unfold ComputeMinChars
  split
  · rename_i hq
    omega
  · rename_i hq
    push_neg at hq
    simp only [Int.toNat_ofNat]
    exact getD_set_self (by omega)

/-- The minCharsValue at a position depends only on the names and length. -/
theorem minCharsValue_congr {parts1 parts2 : List EnsemblePart}
    (hlen : parts1.length = parts2.length)
    (hnm : ∀ i, partNameAt parts1 i = partNameAt parts2 i) (p : Nat) :
    minCharsValue parts1 p = minCharsValue parts2 p := by
  unfold minCharsValue mcBoth mcLeft
  rw [hlen, hnm p, hnm (p - 1), hnm (p + 1)]

theorem length_insertAt (parts : List EnsemblePart) (pos : Nat)
    (h : pos ≤ parts.length) (part : EnsemblePart) :
    (insertAt parts pos part).length = parts.length + 1 := by
  unfold insertAt
  simp
  omega

theorem getD_insertAt_lt (parts : List EnsemblePart) {pos : Nat}
    (hp : pos ≤ parts.length) (part : EnsemblePart) {i : Nat} (h : i < pos)
    (d : EnsemblePart) : (insertAt parts pos part).getD i d = parts.getD i d := by
  unfold insertAt
  rw [getD_append_left (by simp; omega)]
  simp [List.getD_eq_getElem?_getD, List.getElem?_take, h]

theorem getD_insertAt_self (parts : List EnsemblePart) {pos : Nat}
    (hp : pos ≤ parts.length) (part : EnsemblePart) (d : EnsemblePart) :
    (insertAt parts pos part).getD pos d = part := by
  unfold insertAt
  have h1 : (parts.take pos).length = pos := by simp; omega
  rw [getD_append_right (by rw [h1]), h1, Nat.sub_self]
  rfl

theorem getD_insertAt_gt (parts : List EnsemblePart) {pos : Nat}
    (hp : pos ≤ parts.length) (part : EnsemblePart) {i : Nat} (h : pos < i)
    (d : EnsemblePart) :
    (insertAt parts pos part).getD i d = parts.getD (i - 1) d := by
  unfold insertAt
  have h1 : (parts.take pos).length = pos := by simp; omega
  rw [getD_append_right (by rw [h1]; omega), h1]
  have h2 : i - pos = (i - pos - 1) + 1 := by omega
  rw [h2, List.getD_cons_succ, getD_drop']
  congr 1
  omega

end StoreLemmas

section BinarySearch

/-- Index monotonicity of a sorted store. -/
theorem sorted_index {parts : List EnsemblePart} (hs : SortedStore parts)
    {i j : Nat} (hij : i < j) (hj : j < parts.length) :
    sLt (partNameAt parts i) (partNameAt parts j) :=
  pairwise_getD hs hij hj

/-- Bounds of the exact binary search, independent of sortedness. -/
theorem findIndexLoop_bounds (parts : List EnsemblePart) (nm : List Char) :
    ∀ n first lastP1, lastP1 - first ≤ n → first ≤ lastP1 →
    (match findIndexLoop parts nm n first lastP1 with
     | (true, pos) => first ≤ pos ∧ pos < lastP1
     | (false, pos) => first ≤ pos ∧ pos ≤ lastP1) := by
  intro n
  induction n with
  | zero =>
    intro first lastP1 hn hfl
    show first ≤ first ∧ first ≤ lastP1
    exact ⟨le_refl first, hfl⟩
  | succ n ih =>
    intro first lastP1 hn hfl
    by_cases hlt : first < lastP1
    · rw [findIndexLoop, if_pos hlt]
      have hpos1 : first ≤ (first + lastP1 - 1) / 2 := by omega
      have hpos2 : (first + lastP1 - 1) / 2 < lastP1 := by omega
      cases hcmp : cCmp nm (partNameAt parts ((first + lastP1 - 1) / 2)) with
      | eq =>
        simp only [hcmp]
        exact ⟨hpos1, hpos2⟩
      | gt =>
        simp only [hcmp]
        have := ih ((first + lastP1 - 1) / 2 + 1) lastP1 (by omega) (by omega)
        revert this
        cases hr : findIndexLoop parts nm n ((first + lastP1 - 1) / 2 + 1)
            lastP1 with
        | mk b pos =>
          cases b <;> simp <;> omega
      | lt =>
        simp only [hcmp]
        have := ih first ((first + lastP1 - 1) / 2) (by omega) (by omega)
        revert this
        cases hr : findIndexLoop parts nm n first ((first + lastP1 - 1) / 2)
            with
        | mk b pos =>
          cases b <;> simp <;> omega
    · rw [findIndexLoop, if_neg hlt]
      exact ⟨le_refl first, hfl⟩

/-- Correctness of the exact binary search on a sorted store: on found, the
position holds exactly the searched name; on not-found, the returned
insertion point splits the store into strictly smaller and strictly larger
names (in particular the name is absent). -/
theorem findIndexLoop_spec (parts : List EnsemblePart) (nm : List Char)
    (hs : SortedStore parts) :
    ∀ n first lastP1, lastP1 - first ≤ n → lastP1 ≤ parts.length →
    first ≤ lastP1 →
    (∀ i, i < first → sLt (partNameAt parts i) nm) →
    (∀ i, lastP1 ≤ i → i < parts.length → sLt nm (partNameAt parts i)) →
    (match findIndexLoop parts nm n first lastP1 with
     | (true, pos) => pos < parts.length ∧ partNameAt parts pos = nm
     | (false, pos) => pos ≤ parts.length ∧
        (∀ i, i < pos → sLt (partNameAt parts i) nm) ∧
        (∀ i, pos ≤ i → i < parts.length → sLt nm (partNameAt parts i))) := by
  intro n
  induction n with
  | zero =>
    intro first lastP1 hn hlen hfl hlow hhigh
    show first ≤ parts.length ∧ _ ∧ _
    refine ⟨by omega, hlow, ?_⟩
    intro i hi1 hi2
    exact hhigh i (by omega) hi2
  | succ n ih =>
    intro first lastP1 hn hlen hfl hlow hhigh
    by_cases hlt : first < lastP1
    · rw [findIndexLoop, if_pos hlt]
      have hpos1 : first ≤ (first + lastP1 - 1) / 2 := by omega
      have hpos2 : (first + lastP1 - 1) / 2 < lastP1 := by omega
      cases hcmp : cCmp nm (partNameAt parts ((first + lastP1 - 1) / 2)) with
      | eq =>
        show (first + lastP1 - 1) / 2 < parts.length ∧
          partNameAt parts ((first + lastP1 - 1) / 2) = nm
        rw [cCmp_eq_strcmp] at hcmp
        exact ⟨by omega, (strcmp_eq_iff.mp hcmp).symm⟩
      | gt =>
        have hgt : sLt (partNameAt parts ((first + lastP1 - 1) / 2)) nm := by
          rw [cCmp_eq_strcmp] at hcmp
          exact strcmp_swap.mpr hcmp
        refine ih ((first + lastP1 - 1) / 2 + 1) lastP1 (by omega) hlen
          (by omega) ?_ hhigh
        intro i hi
        rcases lt_or_ge i ((first + lastP1 - 1) / 2) with h | h
        · exact sLt_trans (sorted_index hs h (by omega)) hgt
        · have : i = (first + lastP1 - 1) / 2 := by omega
          subst this
          exact hgt
      | lt =>
        have hltv : sLt nm (partNameAt parts ((first + lastP1 - 1) / 2)) := by
          rw [cCmp_eq_strcmp] at hcmp
          exact hcmp
        refine ih first ((first + lastP1 - 1) / 2) (by omega) (by omega)
          (by omega) hlow ?_
        intro i hi1 hi2
        rcases lt_or_ge i lastP1 with h | h
        · rcases eq_or_lt_of_le hi1 with h2 | h2
          · subst h2
            exact hltv
          · exact sLt_trans hltv (sorted_index hs h2 (by omega))
        · exact hhigh i h hi2
    · rw [findIndexLoop, if_neg hlt]
      refine ⟨by omega, hlow, ?_⟩
      intro i hi1 hi2
      exact hhigh i (by omega) hi2

/-- Specification of FindEnsemblePartIndex on a sorted store. -/
theorem findEnsemblePartIndex_spec (parts : List EnsemblePart) (nm : List Char)
    (hs : SortedStore parts) :
    (match findEnsemblePartIndex parts nm with
     | (true, pos) => pos < parts.length ∧ partNameAt parts pos = nm
     | (false, pos) => pos ≤ parts.length ∧
        (∀ i, i < pos → sLt (partNameAt parts i) nm) ∧
        (∀ i, pos ≤ i → i < parts.length → sLt nm (partNameAt parts i))) := by
  have := findIndexLoop_spec parts nm hs parts.length 0 parts.length
    (by omega) (le_refl _) (by omega)
    (by intro i hi; omega)
    (by intro i hi1 hi2; omega)
  exact this

/-- Bounds of FindEnsemblePartIndex, independent of sortedness. -/
theorem findEnsemblePartIndex_bounds (parts : List EnsemblePart)
    (nm : List Char) :
    (match findEnsemblePartIndex parts nm with
     | (true, pos) => pos < parts.length
     | (false, pos) => pos ≤ parts.length) := by
  have := findIndexLoop_bounds parts nm parts.length 0 parts.length
    (by omega) (by omega)
  revert this
  cases hr : findEnsemblePartIndex parts nm with
  | mk b pos =>
    unfold findEnsemblePartIndex at hr
    rw [hr]
    cases b <;> simp

end BinarySearch

section Sortedness

/-- Index formulation of store sortedness (converse of sorted_index). -/
theorem sortedStore_of_getD {parts : List EnsemblePart}
    (h : ∀ i j, i < j → j < parts.length →
      sLt (partNameAt parts i) (partNameAt parts j)) : SortedStore parts := by
  unfold SortedStore
  rw [List.pairwise_iff_getElem]
  intro i j hi hj hij
  have := h i j hij hj
  unfold partNameAt at this
  rwa [List.getD_eq_getElem _ _ (lt_trans hij hj), List.getD_eq_getElem _ _ hj]
    at this

/-- Sortedness transports along equal lengths and names. -/
theorem sortedStore_congr {parts1 parts2 : List EnsemblePart}
    (hlen : parts1.length = parts2.length)
    (hnm : ∀ i, partNameAt parts1 i = partNameAt parts2 i)
    (hs : SortedStore parts1) : SortedStore parts2 := by
  apply sortedStore_of_getD
  intro i j hij hj
  rw [← hnm i, ← hnm j]
  exact sorted_index hs hij (by omega)

/-- Structure of a successful CreateEnsemblePart. -/
theorem CreateEnsemblePart_eq_some {parts : List EnsemblePart}
    {nm : List Char} {parts' : List EnsemblePart} {pos : Nat}
    (h : CreateEnsemblePart parts nm = some (parts', pos)) :
    findEnsemblePartIndex parts nm = (false, pos) ∧
    parts' = ComputeMinChars (ComputeMinChars (ComputeMinChars
      (insertAt parts pos (newPart nm)) (pos : Int))
      ((pos : Int) - 1)) ((pos : Int) + 1) := by
  cases hfp : findEnsemblePartIndex parts nm with
  | mk b p =>
    cases b with
    | true => simp [CreateEnsemblePart, hfp] at h
    | false =>
      simp only [CreateEnsemblePart, hfp, if_neg (Bool.false_ne_true),
        Option.some.injEq, Prod.mk.injEq] at h
      obtain ⟨h1, h2⟩ := h
      subst h2
      exact ⟨rfl, h1.symm⟩

/-- Length of the store a successful CreateEnsemblePart produces. -/
theorem CreateEnsemblePart_length {parts : List EnsemblePart}
    {nm : List Char} {parts' : List EnsemblePart} {pos : Nat}
    (h : CreateEnsemblePart parts nm = some (parts', pos)) :
    pos ≤ parts.length ∧ parts'.length = parts.length + 1 := by
  obtain ⟨hfp, hstruct⟩ := CreateEnsemblePart_eq_some h
  have hb := findEnsemblePartIndex_bounds parts nm
  rw [hfp] at hb
  have hpos : pos ≤ parts.length := hb
  refine ⟨hpos, ?_⟩
  rw [hstruct, length_ComputeMinChars, length_ComputeMinChars,
    length_ComputeMinChars, length_insertAt parts pos hpos]

/-- Names of the store a successful CreateEnsemblePart produces. -/
theorem CreateEnsemblePart_names {parts : List EnsemblePart}
    {nm : List Char} {parts' : List EnsemblePart} {pos : Nat}
    (h : CreateEnsemblePart parts nm = some (parts', pos)) :
    ∀ i, partNameAt parts' i = partNameAt (insertAt parts pos (newPart nm)) i := by
  obtain ⟨hfp, hstruct⟩ := CreateEnsemblePart_eq_some h
  intro i
  rw [hstruct, partNameAt_ComputeMinChars, partNameAt_ComputeMinChars,
    partNameAt_ComputeMinChars]

/-- Inserting at the binary-search insertion point keeps the store sorted. -/
theorem sorted_insertAt {parts : List EnsemblePart} {nm : List Char} {pos : Nat}
    (hs : SortedStore parts) (hpos : pos ≤ parts.length)
    (hlow : ∀ i, i < pos → sLt (partNameAt parts i) nm)
    (hhigh : ∀ i, pos ≤ i → i < parts.length → sLt nm (partNameAt parts i)) :
    SortedStore (insertAt parts pos (newPart nm)) := by
  apply sortedStore_of_getD
  intro i j hij hj
  rw [length_insertAt parts pos hpos] at hj
  have hname : partNameAt (insertAt parts pos (newPart nm)) pos = nm := by
    unfold partNameAt
    rw [getD_insertAt_self parts hpos]
    rfl
  rcases lt_trichotomy j pos with hjp | hjp | hjp
  · unfold partNameAt
    rw [getD_insertAt_lt parts hpos _ (by omega), getD_insertAt_lt parts hpos _ hjp]
    exact sorted_index hs hij (by omega)
  · subst hjp
    rw [hname]
    unfold partNameAt
    rw [getD_insertAt_lt parts hpos _ hij]
    exact hlow i hij
  · have hjname : partNameAt (insertAt parts pos (newPart nm)) j
        = partNameAt parts (j - 1) := by
      unfold partNameAt
      rw [getD_insertAt_gt parts hpos _ hjp]
    rw [hjname]
    rcases lt_trichotomy i pos with hip | hip | hip
    · unfold partNameAt
      rw [getD_insertAt_lt parts hpos _ hip]
      exact sorted_index hs (by omega) (by omega)
    · subst hip
      rw [hname]
      exact hhigh (j - 1) (by omega) (by omega)
    · unfold partNameAt
      rw [getD_insertAt_gt parts hpos _ hip]
      exact sorted_index hs (by omega) (by omega)

/-- A successful insertion preserves sortedness. -/
theorem sorted_CreateEnsemblePart {parts : List EnsemblePart} {nm : List Char}
    {parts' : List EnsemblePart} {pos : Nat} (hs : SortedStore parts)
    (h : CreateEnsemblePart parts nm = some (parts', pos)) :
    SortedStore parts' := by
  obtain ⟨hfp, _⟩ := CreateEnsemblePart_eq_some h
  have hspec := findEnsemblePartIndex_spec parts nm hs
  rw [hfp] at hspec
  obtain ⟨hpos, hlow, hhigh⟩ := hspec
  have hins := sorted_insertAt hs hpos hlow hhigh
  have hlen := (CreateEnsemblePart_length h).2
  have hpos' := (CreateEnsemblePart_length h).1
  exact sortedStore_congr
    (by rw [length_insertAt parts pos hpos', hlen])
    (fun i => (CreateEnsemblePart_names h i).symm)
    hins

/-- Removal (the shift-down loop) preserves sortedness: the result is a
sublist of the original store. -/
theorem remove_sublist (parts : List EnsemblePart) (pos : Nat) :
    (parts.take pos ++ parts.drop (pos + 1)).Sublist parts := by
  conv_rhs => rw [← List.take_append_drop pos parts]
  apply List.Sublist.append_left
  have : parts.drop (pos + 1) = (parts.drop pos).drop 1 := by
    rw [List.drop_drop]
  rw [this]
  exact List.drop_sublist 1 _

theorem sorted_DeleteEnsemblePart {parts : List EnsemblePart}
    {p : EnsemblePart} (hs : SortedStore parts) :
    SortedStore (DeleteEnsemblePart parts p).1 := by
  unfold DeleteEnsemblePart
  split
  · exact hs
  · simp only
    split
    · exact hs.sublist (remove_sublist parts _)
    · exact hs

/-- Every mutation preserves sortedness. -/
theorem sorted_applyOp {parts : List EnsemblePart} (hs : SortedStore parts)
    (op : StoreOp) : SortedStore (applyOp parts op) := by
  cases op with
  | ins nm =>
    simp only [applyOp]
    cases h : CreateEnsemblePart parts nm with
    | none => exact hs
    | some r =>
      obtain ⟨parts', pos⟩ := r
      exact sorted_CreateEnsemblePart hs h
  | del p => exact sorted_DeleteEnsemblePart hs

/-- Every store reachable by insertions and removals is sorted. -/
theorem sortedStore_runOps (ops : List StoreOp) : SortedStore (runOps ops) := by
  have main : ∀ (ops2 : List StoreOp) (parts : List EnsemblePart),
      SortedStore parts → SortedStore (ops2.foldl applyOp parts) := by
    intro ops2
    induction ops2 with
    | nil => intro parts hs; exact hs
    | cons op rest ih =>
      intro parts hs
      exact ih (applyOp parts op) (sorted_applyOp hs op)
  exact main ops [] (by unfold SortedStore; exact List.Pairwise.nil)

end Sortedness

section MinCharsInvariant

theorem pn_insertAt_lt {parts : List EnsemblePart} {pos : Nat}
    (hpos : pos ≤ parts.length) (x : EnsemblePart) {i : Nat} (h : i < pos) :
    partNameAt (insertAt parts pos x) i = partNameAt parts i := by
  unfold partNameAt
  rw [getD_insertAt_lt parts hpos x h]

theorem pn_insertAt_self {parts : List EnsemblePart} {pos : Nat}
    (hpos : pos ≤ parts.length) (x : EnsemblePart) :
    partNameAt (insertAt parts pos x) pos = x.name := by
  unfold partNameAt
  rw [getD_insertAt_self parts hpos x]

theorem pn_insertAt_gt {parts : List EnsemblePart} {pos : Nat}
    (hpos : pos ≤ parts.length) (x : EnsemblePart) {i : Nat} (h : pos < i) :
    partNameAt (insertAt parts pos x) i = partNameAt parts (i - 1) := by
  unfold partNameAt
  rw [getD_insertAt_gt parts hpos x h]

/-- Far below the insertion point, the assigned width is unchanged. -/
theorem minCharsValue_insertAt_low {parts : List EnsemblePart} {pos : Nat}
    (hpos : pos ≤ parts.length) (x : EnsemblePart) {i : Nat} (h : i + 1 < pos) :
    minCharsValue (insertAt parts pos x) i = minCharsValue parts i := by
  unfold minCharsValue mcBoth mcLeft
  rw [pn_insertAt_lt hpos x (by omega : i < pos),
    pn_insertAt_lt hpos x (by omega : i - 1 < pos),
    pn_insertAt_lt hpos x (by omega : i + 1 < pos),
    length_insertAt parts pos hpos,
    if_pos (by omega : i + 1 < parts.length + 1),
    if_pos (by omega : i + 1 < parts.length)]

/-- Far above the insertion point, the assigned width is that of the old
index (the part and both neighbors shifted together). -/
theorem minCharsValue_insertAt_high {parts : List EnsemblePart} {pos : Nat}
    (hpos : pos ≤ parts.length) (x : EnsemblePart) {i : Nat}
    (h : pos + 2 ≤ i) (hi : i ≤ parts.length) :
    minCharsValue (insertAt parts pos x) i = minCharsValue parts (i - 1) := by
  unfold minCharsValue mcBoth mcLeft
  rw [pn_insertAt_gt hpos x (by omega : pos < i),
    pn_insertAt_gt hpos x (by omega : pos < i - 1),
    pn_insertAt_gt hpos x (by omega : pos < i + 1),
    (by omega : i + 1 - 1 = i - 1 + 1),
    length_insertAt parts pos hpos,
    if_pos (by omega : (1 : Nat) ≤ i), if_pos (by omega : (1 : Nat) ≤ i - 1)]
  by_cases hL : i < parts.length
  · rw [if_pos (by omega : i + 1 < parts.length + 1),
      if_pos (by omega : i - 1 + 1 < parts.length)]
  · rw [if_neg (by omega : ¬ i + 1 < parts.length + 1),
      if_neg (by omega : ¬ i - 1 + 1 < parts.length)]

/-- Entries away from the three recomputed positions carry over from the
freshly inserted store. -/
theorem getD_CreateChain {parts : List EnsemblePart} {nm : List Char}
    {parts' : List EnsemblePart} {pos : Nat}
    (h : CreateEnsemblePart parts nm = some (parts', pos)) (d : EnsemblePart)
    {i : Nat} (h1 : (i : Int) ≠ (pos : Int))
    (h2 : (i : Int) ≠ (pos : Int) - 1) (h3 : (i : Int) ≠ (pos : Int) + 1) :
    parts'.getD i d = (insertAt parts pos (newPart nm)).getD i d := by
  obtain ⟨-, hstruct⟩ := CreateEnsemblePart_eq_some h
  rw [hstruct, getD_ComputeMinChars_ne _ _ _ h3 d,
    getD_ComputeMinChars_ne _ _ _ h2 d, getD_ComputeMinChars_ne _ _ _ h1 d]

/-- Every stored minChars equals the value ComputeMinChars would assign at
its position, given the current neighbors. -/
def MCinv (parts : List EnsemblePart) : Prop :=
  ∀ i, i < parts.length →
    (parts.getD i default).minChars = minCharsValue parts i

/-- A successful insertion reestablishes the width invariant everywhere:
the three touched positions are recomputed against the new store, and every
other position keeps both its width and its neighbors. -/
theorem MCinv_CreateEnsemblePart {parts : List EnsemblePart} {nm : List Char}
    {parts' : List EnsemblePart} {pos : Nat} (hinv : MCinv parts)
    (h : CreateEnsemblePart parts nm = some (parts', pos)) : MCinv parts' := by
  obtain ⟨hfp, hstruct⟩ := CreateEnsemblePart_eq_some h
  obtain ⟨hpos, hlen'⟩ := CreateEnsemblePart_length h
  have hnames := CreateEnsemblePart_names h
  have hlenins : (insertAt parts pos (newPart nm)).length = parts.length + 1 :=
    length_insertAt parts pos hpos (newPart nm)
  have hmcc : ∀ j, minCharsValue parts' j
      = minCharsValue (insertAt parts pos (newPart nm)) j :=
    minCharsValue_congr (by rw [hlen', hlenins]) hnames
  intro i hi
  rw [hlen'] at hi
  by_cases hA : i = pos
  · subst hA
    have step3 : parts'.getD i default
        = (ComputeMinChars (ComputeMinChars (insertAt parts i (newPart nm))
            (i : Int)) ((i : Int) - 1)).getD i default := by
      rw [hstruct]
      exact getD_ComputeMinChars_ne _ _ _ (by omega) default
    have step2 : (ComputeMinChars (ComputeMinChars (insertAt parts i (newPart nm))
        (i : Int)) ((i : Int) - 1)).getD i default
        = (ComputeMinChars (insertAt parts i (newPart nm)) (i : Int)).getD i
          default :=
      getD_ComputeMinChars_ne _ _ _ (by omega) default
    have step1 := getD_ComputeMinChars_self (insertAt parts i (newPart nm)) i
      (by omega) default
    rw [step3, step2, step1, hmcc i]
  · by_cases hB : i + 1 = pos
    · have hcast : (pos : Int) - 1 = (i : Int) := by omega
      have step3 : parts'.getD i default
          = (ComputeMinChars (ComputeMinChars (insertAt parts pos (newPart nm))
              (pos : Int)) ((pos : Int) - 1)).getD i default := by
        rw [hstruct]
        exact getD_ComputeMinChars_ne _ _ _ (by omega) default
      rw [step3, hcast]
      have step2 := getD_ComputeMinChars_self
        (ComputeMinChars (insertAt parts pos (newPart nm)) (pos : Int)) i
        (by rw [length_ComputeMinChars, hlenins]; omega) default
      rw [step2]
      have hval : minCharsValue
          (ComputeMinChars (insertAt parts pos (newPart nm)) (pos : Int)) i
          = minCharsValue (insertAt parts pos (newPart nm)) i :=
        minCharsValue_congr (by rw [length_ComputeMinChars])
          (fun j => partNameAt_ComputeMinChars _ _ j) i
      rw [hval, hmcc i]
    · by_cases hC : i = pos + 1
      · subst hC
        have hcast : ((pos : Int) + 1) = ((pos + 1 : Nat) : Int) := by omega
        have step1 : parts'.getD (pos + 1) default
            = { (ComputeMinChars (ComputeMinChars (insertAt parts pos
                  (newPart nm)) (pos : Int)) ((pos : Int) - 1)).getD (pos + 1)
                  default with
                minChars := minCharsValue
                  (ComputeMinChars (ComputeMinChars (insertAt parts pos
                    (newPart nm)) (pos : Int)) ((pos : Int) - 1)) (pos + 1) } := by
          rw [hstruct, hcast]
          exact getD_ComputeMinChars_self _ (pos + 1)
            (by rw [length_ComputeMinChars, length_ComputeMinChars, hlenins]
               ; omega) default
        have hval : minCharsValue
            (ComputeMinChars (ComputeMinChars (insertAt parts pos (newPart nm))
              (pos : Int)) ((pos : Int) - 1)) (pos + 1)
            = minCharsValue (insertAt parts pos (newPart nm)) (pos + 1) :=
          minCharsValue_congr
            (by rw [length_ComputeMinChars, length_ComputeMinChars])
            (fun j => by
              rw [partNameAt_ComputeMinChars, partNameAt_ComputeMinChars])
            (pos + 1)
        rw [step1, hval, hmcc (pos + 1)]
      · have hD := getD_CreateChain h default
          (by omega : (i : Int) ≠ (pos : Int))
          (by omega : (i : Int) ≠ (pos : Int) - 1)
          (by omega : (i : Int) ≠ (pos : Int) + 1)
        rw [hD, hmcc i]
        rcases lt_or_gt_of_ne hA with hlt | hgt
        · have hlow : i + 1 < pos := by omega
          rw [getD_insertAt_lt parts hpos _ hlt,
            minCharsValue_insertAt_low hpos _ hlow]
          exact hinv i (by omega)
        · have hhigh : pos + 2 ≤ i := by omega
          rw [getD_insertAt_gt parts hpos _ hgt,
            minCharsValue_insertAt_high hpos _ hhigh (by omega)]
          exact hinv (i - 1) (by omega)

/-- The width invariant holds in every store built by insertions only. -/
theorem MCinv_runInserts (nms : List (List Char)) : MCinv (runInserts nms) := by
  have main : ∀ (l : List (List Char)) (parts : List EnsemblePart),
      MCinv parts → MCinv ((l.map StoreOp.ins).foldl applyOp parts) := by
    intro l
    induction l with
    | nil => intro parts hinv; exact hinv
    | cons nm rest ih =>
      intro parts hinv
      simp only [List.map_cons, List.foldl_cons]
      apply ih
      show MCinv (applyOp parts (.ins nm))
      simp only [applyOp]
      cases hc : CreateEnsemblePart parts nm with
      | none => exact hinv
      | some r =>
        obtain ⟨parts', pos⟩ := r
        exact MCinv_CreateEnsemblePart hinv hc
  exact main nms [] (by intro i hi; simp at hi)

end MinCharsInvariant

section GlobalMinChars

theorem commonLen_comm (a b : List Char) : commonLen a b = commonLen b a := by
  induction a generalizing b with
  | nil => cases b <;> simp [commonLen]
  | cons x xs ih =>
    cases b with
    | nil => simp [commonLen]
    | cons y ys =>
      by_cases hxy : x = y
      · subst hxy
        simp [commonLen, ih]
      · simp [commonLen, hxy, Ne.symm hxy]

/-- Squeeze property of the common run in a chain a < b < c: both runs
with the middle element dominate the run between the extremes.  This is
what makes neighbor-only recomputation sound on a sorted store. -/
theorem commonLen_squeeze {a b c : List Char} (h1 : sLt a b) (h2 : sLt b c) :
    commonLen a c ≤ commonLen b c ∧ commonLen a c ≤ commonLen a b := by
  induction a generalizing b c with
  | nil =>
    constructor
    · cases c <;> simp [commonLen]
    · cases b <;> simp [commonLen]
  | cons x xs ih =>
    cases c with
    | nil =>
      constructor <;> simp [commonLen]
    | cons z zs =>
      by_cases hxz : x = z
      · subst hxz
        cases b with
        | nil => simp [sLt, strcmp] at h1
        | cons y ys =>
          have hxy : x = y := by
            by_cases hxy1 : x < y
            · have hyx1 : ¬ y < x := not_lt.mpr (le_of_lt hxy1)
              unfold sLt strcmp at h2
              rw [if_neg hyx1, if_pos hxy1] at h2
              exact absurd h2 (by decide)
            · by_cases hyx1 : y < x
              · unfold sLt strcmp at h1
                rw [if_neg hxy1, if_pos hyx1] at h1
                exact absurd h1 (by decide)
              · exact le_antisymm (not_lt.mp hyx1) (not_lt.mp hxy1)
          subst hxy
          have h1' : sLt xs ys := by
            unfold sLt strcmp at h1
            rw [if_neg (lt_irrefl x), if_neg (lt_irrefl x)] at h1
            exact h1
          have h2' : sLt ys zs := by
            unfold sLt strcmp at h2
            rw [if_neg (lt_irrefl x), if_neg (lt_irrefl x)] at h2
            exact h2
          have := ih h1' h2'
          constructor
          · simpa [commonLen] using this.1
          · simpa [commonLen] using this.2
      · constructor
        · simp [commonLen, hxz]
        · simp [commonLen, hxz]

theorem one_le_mcLeft (parts : List EnsemblePart) (i : Nat) :
    1 ≤ mcLeft parts i := by
  unfold mcLeft
  split
  · exact le_max_left 1 _
  · exact le_refl 1

theorem mcLeft_le_mcBoth (parts : List EnsemblePart) (i : Nat) :
    mcLeft parts i ≤ mcBoth parts i := by
  unfold mcBoth
  split
  · exact le_max_left _ _
  · exact le_refl _

/-- On a sorted store, the neighbor-derived width (before clamping) is the
least k at least 1 that exceeds the common run with every other part. -/
theorem mcBoth_isLeast {parts : List EnsemblePart} (hs : SortedStore parts)
    {i : Nat} (hi : i < parts.length) :
    IsLeast {k | 1 ≤ k ∧ ∀ j, j < parts.length → j ≠ i →
      commonLen (partNameAt parts i) (partNameAt parts j) < k}
      (mcBoth parts i) := by
  constructor
  · refine ⟨le_trans (one_le_mcLeft parts i) (mcLeft_le_mcBoth parts i), ?_⟩
    intro j hj hji
    rcases lt_or_gt_of_ne hji with hlt | hgt
    · -- j on the left: dominated by the run with the left neighbor
      have hil : 1 ≤ i := by omega
      have hnear : commonLen (partNameAt parts i) (partNameAt parts (i - 1)) + 1
          ≤ mcLeft parts i := by
        unfold mcLeft
        rw [if_pos hil]
        exact le_max_right _ _
      have hj_le : commonLen (partNameAt parts i) (partNameAt parts j)
          ≤ commonLen (partNameAt parts i) (partNameAt parts (i - 1)) := by
        rcases eq_or_lt_of_le (by omega : j ≤ i - 1) with he | hlt2
        · rw [he]
        · have s1 : sLt (partNameAt parts j) (partNameAt parts (i - 1)) :=
            sorted_index hs hlt2 (by omega)
          have s2 : sLt (partNameAt parts (i - 1)) (partNameAt parts i) :=
            sorted_index hs (by omega) hi
          have hsq := (commonLen_squeeze s1 s2).1
          rw [commonLen_comm (partNameAt parts i) (partNameAt parts j),
            commonLen_comm (partNameAt parts i) (partNameAt parts (i - 1))]
          exact hsq
      calc commonLen (partNameAt parts i) (partNameAt parts j)
          ≤ commonLen (partNameAt parts i) (partNameAt parts (i - 1)) := hj_le
        _ < mcLeft parts i := by omega
        _ ≤ mcBoth parts i := mcLeft_le_mcBoth parts i
    · -- j on the right: dominated by the run with the right neighbor
      have hir : i + 1 < parts.length := by omega
      have hnear : commonLen (partNameAt parts i) (partNameAt parts (i + 1)) + 1
          ≤ mcBoth parts i := by
        unfold mcBoth
        rw [if_pos hir]
        exact le_max_right _ _
      have hj_le : commonLen (partNameAt parts i) (partNameAt parts j)
          ≤ commonLen (partNameAt parts i) (partNameAt parts (i + 1)) := by
        rcases eq_or_lt_of_le (by omega : i + 1 ≤ j) with he | hlt2
        · rw [← he]
        · have s1 : sLt (partNameAt parts i) (partNameAt parts (i + 1)) :=
            sorted_index hs (by omega) hir
          have s2 : sLt (partNameAt parts (i + 1)) (partNameAt parts j) :=
            sorted_index hs hlt2 hj
          exact (commonLen_squeeze s1 s2).2
      omega
  · rintro k ⟨hk1, hk2⟩
    unfold mcBoth mcLeft
    by_cases hir : i + 1 < parts.length
    · rw [if_pos hir]
      have hR := hk2 (i + 1) hir (by omega)
      by_cases hil : 1 ≤ i
      · rw [if_pos hil]
        have hL := hk2 (i - 1) (by omega) (by omega)
        simp only [max_le_iff]
        omega
      · rw [if_neg hil]
        simp only [max_le_iff]
        omega
    · rw [if_neg hir]
      by_cases hil : 1 ≤ i
      · rw [if_pos hil]
        have hL := hk2 (i - 1) (by omega) (by omega)
        simp only [max_le_iff]
        omega
      · rw [if_neg hil]
        exact hk1

end GlobalMinChars

section FindPartLemmas

theorem cnCmp_eq_imp {nlen : Nat} {p q : List Char} (h : cnCmp nlen p q = .eq) :
    strncmp nlen p q = .eq := by
  unfold cnCmp at h
  split at h
  · exact h
  · split at h <;> exact absurd h (by decide)

/-- A successful break of the prefix binary search lands in range, on an
entry matching the first nlen characters. -/
theorem findPartLoop_some (parts : List EnsemblePart) (nm : List Char)
    (nlen : Nat) :
    ∀ n first lastP1, lastP1 - first ≤ n → lastP1 ≤ parts.length →
    ∀ pos, findPartLoop parts nm nlen n first lastP1 = some pos →
    pos < parts.length ∧ strncmp nlen nm (partNameAt parts pos) = .eq := by
  intro n
  induction n with
  | zero =>
    intro first lastP1 hn hlen pos h
    exact Option.noConfusion h
  | succ n ih =>
    intro first lastP1 hn hlen pos h
    by_cases hlt : first < lastP1
    · rw [findPartLoop, if_pos hlt] at h
      cases hcmp : cnCmp nlen nm (partNameAt parts ((first + lastP1 - 1) / 2)) with
      | eq =>
        rw [hcmp] at h
        simp only [Option.some.injEq] at h
        subst h
        exact ⟨by omega, cnCmp_eq_imp hcmp⟩
      | gt =>
        rw [hcmp] at h
        exact ih ((first + lastP1 - 1) / 2 + 1) lastP1 (by omega) hlen pos h
      | lt =>
        rw [hcmp] at h
        exact ih first ((first + lastP1 - 1) / 2) (by omega) (by omega) pos h
    · rw [findPartLoop, if_neg hlt] at h
      exact Option.noConfusion h

/-- The backward scan stays at or below its start and lands on a matching
entry whenever it starts on one. -/
theorem backWalk_spec (parts : List EnsemblePart) (nm : List Char) (nlen : Nat) :
    ∀ pos, strncmp nlen nm (partNameAt parts pos) = .eq →
    backWalk parts nm nlen pos ≤ pos ∧
    strncmp nlen nm (partNameAt parts (backWalk parts nm nlen pos)) = .eq := by
  intro pos
  induction pos with
  | zero =>
    intro h
    exact ⟨le_refl 0, h⟩
  | succ p ih =>
    intro h
    by_cases hc : strncmp nlen nm (partNameAt parts p) = .eq
    · have hcond : ¬ (strncmp nlen nm (partNameAt parts p) ≠ .eq) := by
        simp [hc]
      rw [backWalk, if_neg hcond]
      obtain ⟨h1, h2⟩ := ih hc
      exact ⟨by omega, h2⟩
    · rw [backWalk, if_pos hc]
      exact ⟨le_refl _, h⟩

/-- Any part returned by FindEnsemblePart is a member of the store whose
name matches the searched string on its whole length. -/
theorem FindEnsemblePart_okPart {parts : List EnsemblePart} {nm : List Char}
    {p : EnsemblePart} (h : FindEnsemblePart parts nm = .okPart p) :
    p ∈ parts ∧ strncmp nm.length nm p.name = .eq := by
  simp only [FindEnsemblePart] at h
  cases hloop : findPartLoop parts nm nm.length parts.length 0 parts.length with
  | none =>
    rw [hloop] at h
    exact FindPartResult.noConfusion h
  | some pos0 =>
    simp only [hloop] at h
    obtain ⟨hb0, he0⟩ := findPartLoop_some parts nm nm.length parts.length 0
      parts.length (by omega) (le_refl _) pos0 hloop
    set pos1 := (if nm.length < (parts.getD pos0 default).minChars then
        backWalk parts nm nm.length pos0 else pos0) with hpos1def
    have hfacts : pos1 < parts.length ∧
        strncmp nm.length nm (partNameAt parts pos1) = .eq := by
      rw [hpos1def]
      split
      · obtain ⟨hw1, hw2⟩ := backWalk_spec parts nm nm.length pos0 he0
        exact ⟨by omega, hw2⟩
      · exact ⟨hb0, he0⟩
    by_cases hc : nm.length < (parts.getD pos1 default).minChars
    · rw [if_pos hc] at h
      exact FindPartResult.noConfusion h
    · rw [if_neg hc] at h
      injection h with hp
      subst hp
      exact ⟨getD_mem' hfacts.1, hfacts.2⟩

end FindPartLemmas

section UsageRendering

theorem intercalate_cons {α : Type} [DecidableEq α] (sep a : List α)
    (l : List (List α)) :
    List.intercalate sep (a :: l)
      = a ++ (if l = [] then [] else sep ++ List.intercalate sep l) := by
  cases l with
  | nil => simp [List.intercalate]
  | cons b bs => simp [List.intercalate, List.intersperse]

/-- Rendering of an ensemble summary as the specification words it: all
parts in store order except "@error" and "@itcl-builtin_info", two leading
spaces on the first line, newline plus two spaces between lines, and the
open-ended trailer exactly when an "@error" part is present. -/
def renderEnsembleSpec (rootName : List Char) (trailNames : List (List Char))
    (parts : List EnsemblePart) : List Char :=
  (if parts.filter (fun p => !(p.name == "@error".toList)
        && !(p.name == "@itcl-builtin_info".toList)) = [] then []
   else "  ".toList ++ List.intercalate ("\n  ".toList)
     ((parts.filter (fun p => !(p.name == "@error".toList)
        && !(p.name == "@itcl-builtin_info".toList))).map
       (GetEnsemblePartUsage rootName trailNames)))
  ++ (if parts.any (fun p => p.name == "@error".toList) then
        "\n...and others described on the man page".toList
      else [])

theorem GetEnsembleUsageLoop_spec (rootName : List Char)
    (trailNames : List (List Char)) (parts : List EnsemblePart) :
    ∀ spaces, GetEnsembleUsageLoop rootName trailNames parts spaces
      = ((if parts.filter (fun p => !(p.name == "@error".toList)
            && !(p.name == "@itcl-builtin_info".toList)) = [] then []
          else spaces ++ List.intercalate ("\n  ".toList)
            ((parts.filter (fun p => !(p.name == "@error".toList)
              && !(p.name == "@itcl-builtin_info".toList))).map
              (GetEnsemblePartUsage rootName trailNames))),
         parts.any (fun p => p.name == "@error".toList)) := by
  induction parts with
  | nil => intro spaces; simp [GetEnsembleUsageLoop]
  | cons p rest ih =>
    intro spaces
    by_cases he : p.name = "@error".toList
    · have hbeqE : (p.name == "@error".toList) = true := by simpa using he
      rw [GetEnsembleUsageLoop, if_pos he, ih spaces]
      simp only [List.filter_cons, List.any_cons, hbeqE, Bool.not_true,
        Bool.false_and, Bool.true_or, Bool.false_eq_true, if_false]
    · by_cases hb : p.name = "@itcl-builtin_info".toList
      · have hbeqE : (p.name == "@error".toList) = false := by simpa using he
        have hbeqB : (p.name == "@itcl-builtin_info".toList) = true := by
          simpa using hb
        rw [GetEnsembleUsageLoop, if_neg he, if_pos hb, ih spaces]
        simp only [List.filter_cons, List.any_cons, hbeqE, hbeqB,
          Bool.not_true, Bool.not_false, Bool.and_false, Bool.false_or,
          Bool.false_eq_true, if_false]
      · have hbeqE : (p.name == "@error".toList) = false := by simpa using he
        have hbeqB : (p.name == "@itcl-builtin_info".toList) = false := by
          simpa using hb
        rw [GetEnsembleUsageLoop, if_neg he, if_neg hb, ih ("\n  ".toList)]
        simp only [List.filter_cons, List.any_cons, hbeqE, hbeqB,
          Bool.not_false, Bool.and_self, Bool.false_or, eq_self_iff_true,
          if_true]
        rw [if_neg (List.cons_ne_nil _ _), List.map_cons, intercalate_cons]
        by_cases hrest : rest.filter (fun q => !(q.name == "@error".toList)
            && !(q.name == "@itcl-builtin_info".toList)) = []
        · rw [if_pos hrest, hrest]
          simp only [List.map_nil, List.append_nil, List.append_assoc,
            if_true]
        · rw [if_neg hrest,
            if_neg (fun hcon => hrest (List.map_eq_nil_iff.mp hcon))]
          simp only [List.append_assoc]

/-- GetEnsembleUsage agrees with the specification-level rendering. -/
theorem GetEnsembleUsage_eq_spec (rootName : List Char)
    (trailNames : List (List Char)) (parts : List EnsemblePart) :
    GetEnsembleUsage rootName trailNames parts
      = renderEnsembleSpec rootName trailNames parts := by
  unfold GetEnsembleUsage renderEnsembleSpec
  rw [GetEnsembleUsageLoop_spec rootName trailNames parts ("  ".toList)]

end UsageRendering

section DeleteEnsembleLemmas

/-- On a sorted store, deleting the first part by name removes exactly the
head (the binary search can only find index 0 for the head name). -/
theorem DeleteEnsemblePart_head {p : EnsemblePart} {rest : List EnsemblePart}
    (hs : SortedStore (p :: rest)) (hv : p.cmdValid = true) :
    DeleteEnsemblePart (p :: rest) p
      = (rest, if p.hasDeleteProc then [p.name] else []) := by
  have hnotfalse : ¬ p.cmdValid = false := by simp [hv]
  have hspec := findEnsemblePartIndex_spec (p :: rest) p.name hs
  cases hfp : findEnsemblePartIndex (p :: rest) p.name with
  | mk found pos =>
    rw [hfp] at hspec
    cases found with
    | false =>
      exfalso
      obtain ⟨-, hlow, hhigh⟩ := hspec
      have hname0 : partNameAt (p :: rest) 0 = p.name := rfl
      by_cases h0 : 0 < pos
      · have := hlow 0 h0
        rw [hname0] at this
        exact sLt_irrefl p.name this
      · have := hhigh 0 (by omega) (by simp)
        rw [hname0] at this
        exact sLt_irrefl p.name this
    | true =>
      obtain ⟨hposlt, hname⟩ := hspec
      have hpos0 : pos = 0 := by
        by_contra hne
        have hlt := sorted_index hs (by omega : 0 < pos) hposlt
        rw [hname] at hlt
        have hname0 : partNameAt (p :: rest) 0 = p.name := rfl
        rw [hname0] at hlt
        exact sLt_irrefl p.name hlt
      subst hpos0
      unfold DeleteEnsemblePart
      rw [if_neg hnotfalse, hfp]
      simp

/-- The teardown loop of DeleteEnsemble succeeds on a sorted store of parts
with live commands, firing the destructor of each part exactly once, in
store order. -/
theorem DeleteEnsembleLoop_spec :
    ∀ (parts : List EnsemblePart) (evs : List (List Char)),
    SortedStore parts → (∀ p ∈ parts, p.cmdValid = true) →
    DeleteEnsembleLoop parts.length parts evs
      = some (evs ++ (parts.filter (fun p => p.hasDeleteProc)).map
          (fun p => p.name)) := by
  intro parts
  induction parts with
  | nil =>
    intro evs hs hv
    simp [DeleteEnsembleLoop]
  | cons p rest ih =>
    intro evs hs hv
    have hvp : p.cmdValid = true := hv p (by simp)
    have hdel := DeleteEnsemblePart_head hs hvp
    show DeleteEnsembleLoop (rest.length + 1) (p :: rest) evs = _
    rw [DeleteEnsembleLoop, hdel]
    simp only [List.length_cons]
    rw [if_pos (by omega : rest.length < rest.length + 1)]
    have hs' : SortedStore rest := by
      unfold SortedStore at hs ⊢
      exact (List.pairwise_cons.mp hs).2
    have hv' : ∀ q ∈ rest, q.cmdValid = true := by
      intro q hq
      exact hv q (by simp [hq])
    rw [ih (evs ++ if p.hasDeleteProc then [p.name] else []) hs' hv']
    congr 1
    rw [List.filter_cons]
    by_cases hdp : p.hasDeleteProc
    · simp [hdp]
    · simp [hdp]

end DeleteEnsembleLemmas

/-- Projection form of the found-case bound. -/
theorem findEnsemblePartIndex_found_lt (parts : List EnsemblePart)
    (nm : List Char) (h : (findEnsemblePartIndex parts nm).1 = true) :
    (findEnsemblePartIndex parts nm).2 < parts.length := by
  have hb := findEnsemblePartIndex_bounds parts nm
  cases hfp : findEnsemblePartIndex parts nm with
  | mk b pos =>
    rw [hfp] at hb h
    cases b with
    | false => exact absurd h (by simp)
    | true => simpa using hb

section Claims

/-- C1: for every sequence of part insertions (CreateEnsemblePart) and part
removals (DeleteEnsemblePart) applied to one ensemble's part store, the
stored parts are in strictly increasing lexicographic order by name at every
observation point between calls; in particular the names are unique, which
is what validates the binary searches. -/
theorem claim_C1 (ops : List StoreOp) :
    SortedStore (runOps ops) ∧ ((runOps ops).map (fun p => p.name)).Nodup := by
  refine ⟨sortedStore_runOps ops, ?_⟩
  have hs := sortedStore_runOps ops
  unfold SortedStore at hs
  exact List.pairwise_map.mpr (hs.imp (fun h => sLt_ne h))

/-- C2 counterexample: in the store built by inserting "get" then "getall",
the part "get" has minChars 3, yet the smallest k of at least one character
such that no other part shares the first k characters of "get" is 4
("getall" shares the first 3): the stored width is clamped to the length of
the name, so it is not that smallest k. -/
theorem claim_C2_counterexample :
    ((runInserts ["get".toList, "getall".toList]).getD 0 default).minChars
      ≠ sInf {k | 1 ≤ k ∧
          ∀ j, j < (runInserts ["get".toList, "getall".toList]).length →
          j ≠ 0 →
          commonLen (partNameAt (runInserts ["get".toList, "getall".toList]) 0)
            (partNameAt (runInserts ["get".toList, "getall".toList]) j) < k} := by
  have h1 : ((runInserts ["get".toList, "getall".toList]).getD 0
      default).minChars = 3 := by decide
  have hlen : (runInserts ["get".toList, "getall".toList]).length = 2 := by
    decide
  have hcl : commonLen
      (partNameAt (runInserts ["get".toList, "getall".toList]) 0)
      (partNameAt (runInserts ["get".toList, "getall".toList]) 1) = 3 := by
    decide
  have h2 : sInf {k | 1 ≤ k ∧
      ∀ j, j < (runInserts ["get".toList, "getall".toList]).length → j ≠ 0 →
      commonLen (partNameAt (runInserts ["get".toList, "getall".toList]) 0)
        (partNameAt (runInserts ["get".toList, "getall".toList]) j) < k}
      = 4 := by
    apply IsLeast.csInf_eq
    constructor
    · refine ⟨by omega, ?_⟩
      intro j hj hj0
      rw [hlen] at hj
      have hj1 : j = 1 := by omega
      subst hj1
      rw [hcl]
      omega
    · rintro k ⟨hk1, hk2⟩
      have := hk2 1 (by rw [hlen]; omega) (by omega)
      rw [hcl] at this
      omega
  rw [h1, h2]
  omega

/-- C2 amended: after any sequence of insertions into an initially empty
part store, every part p has p.minChars equal to the minimum of the length
of p's name and the smallest k of at least one character such that no other
part in the store shares the first k characters of p's name (a part q
shares the first k characters exactly when the common leading run of the
two names has length at least k). -/
theorem claim_C2_amended (nms : List (List Char)) (i : Nat)
    (hi : i < (runInserts nms).length) :
    ((runInserts nms).getD i default).minChars
      = min (partNameAt (runInserts nms) i).length
        (sInf {k | 1 ≤ k ∧ ∀ j, j < (runInserts nms).length → j ≠ i →
          commonLen (partNameAt (runInserts nms) i)
            (partNameAt (runInserts nms) j) < k}) := by
  have hs : SortedStore (runInserts nms) := by
    unfold runInserts
    exact sortedStore_runOps _
  have hinv := MCinv_runInserts nms i hi
  have hleast := mcBoth_isLeast hs hi
  rw [hinv]
  unfold minCharsValue
  rw [hleast.csInf_eq]
  exact min_comm _ _

/-- C2 amended, witness at a concrete input: one insertion of "a". -/
theorem claim_C2_amended_witness :
    ((runInserts ["a".toList]).getD 0 default).minChars
      = min (partNameAt (runInserts ["a".toList]) 0).length
        (sInf {k | 1 ≤ k ∧ ∀ j, j < (runInserts ["a".toList]).length → j ≠ 0 →
          commonLen (partNameAt (runInserts ["a".toList]) 0)
            (partNameAt (runInserts ["a".toList]) j) < k}) :=
  claim_C2_amended ["a".toList] 0 (by decide)

/-- C3: in the store built by inserting "get", "getall", "set", prefix
lookup of "g" and of "ge" is ambiguous with candidates get and getall,
lookup of "get" returns the part "get", lookup of "s" returns the part
"set", and the abbreviation widths are minChars("get") = 3 and
minChars("set") = 1. -/
theorem claim_C3 :
    runInserts ["get".toList, "getall".toList, "set".toList]
      = [⟨"get".toList, 3, [], false, false, false⟩,
         ⟨"getall".toList, 4, [], false, false, false⟩,
         ⟨"set".toList, 1, [], false, false, false⟩] ∧
    FindEnsemblePart (runInserts ["get".toList, "getall".toList, "set".toList])
        "g".toList
      = .err [⟨"get".toList, 3, [], false, false, false⟩,
              ⟨"getall".toList, 4, [], false, false, false⟩] ∧
    FindEnsemblePart (runInserts ["get".toList, "getall".toList, "set".toList])
        "ge".toList
      = .err [⟨"get".toList, 3, [], false, false, false⟩,
              ⟨"getall".toList, 4, [], false, false, false⟩] ∧
    FindEnsemblePart (runInserts ["get".toList, "getall".toList, "set".toList])
        "get".toList
      = .okPart ⟨"get".toList, 3, [], false, false, false⟩ ∧
    FindEnsemblePart (runInserts ["get".toList, "getall".toList, "set".toList])
        "s".toList
      = .okPart ⟨"set".toList, 1, [], false, false, false⟩ ∧
    ((runInserts ["get".toList, "getall".toList, "set".toList]).getD 0
        default).minChars = 3 ∧
    ((runInserts ["get".toList, "getall".toList, "set".toList]).getD 2
        default).minChars = 1 := by
  decide

/-- C4: a removal never recomputes abbreviation widths: DeleteEnsemblePart
either leaves the store unchanged or removes exactly one entry, and every
remaining part is the very record that was in the store before (same name,
same minChars), even when its neighbor was just removed. -/
theorem claim_C4 (parts : List EnsemblePart) (p : EnsemblePart) :
    (DeleteEnsemblePart parts p).1 = parts ∨
    ∃ l1 x l2, parts = l1 ++ x :: l2 ∧
      (DeleteEnsemblePart parts p).1 = l1 ++ l2 := by
  unfold DeleteEnsemblePart
  split
  · left
    rfl
  · simp only
    split
    · rename_i hfound
      right
      have hlt : (findEnsemblePartIndex parts p.name).2 < parts.length :=
        findEnsemblePartIndex_found_lt parts p.name hfound
      refine ⟨parts.take (findEnsemblePartIndex parts p.name).2,
        parts.getD (findEnsemblePartIndex parts p.name).2 default,
        parts.drop ((findEnsemblePartIndex parts p.name).2 + 1), ?_, rfl⟩
      conv_lhs => rw [← List.take_append_drop
        (findEnsemblePartIndex parts p.name).2 parts]
      rw [drop_eq_getD_cons hlt]
    · left
      rfl

/-- C5 counterexample: adding part "a" to an empty ensemble while the host
command installation fails returns an error, but the freshly inserted part
is left in the store: the addition is not atomic on installation failure. -/
theorem claim_C5_counterexample :
    (AddEnsemblePart [] "a".toList [] false).1 = .installErr ∧
    (AddEnsemblePart [] "a".toList [] false).2 ≠ [] := by
  decide

/-- C5 amended: if AddEnsemblePart fails because the part name is already
present, the store is unchanged; but if the host callable installation
fails, the error is returned with the new part still in the store (one
entry longer, containing a part with the new name): no rollback happens. -/
theorem claim_C5_amended (parts : List EnsemblePart) (nm u : List Char)
    (ok : Bool) :
    (CreateEnsemblePart parts nm = none →
      AddEnsemblePart parts nm u ok = (.dupErr, parts)) ∧
    (CreateEnsemblePart parts nm ≠ none →
      (AddEnsemblePart parts nm u false).1 = .installErr ∧
      (AddEnsemblePart parts nm u false).2.length = parts.length + 1 ∧
      ∃ p ∈ (AddEnsemblePart parts nm u false).2, p.name = nm) := by
  constructor
  · intro h
    unfold AddEnsemblePart
    rw [h]
  · intro h
    cases hc : CreateEnsemblePart parts nm with
    | none => exact absurd hc h
    | some r =>
      obtain ⟨parts1, pos⟩ := r
      obtain ⟨hpos, hlen⟩ := CreateEnsemblePart_length hc
      have hname : partNameAt parts1 pos = nm := by
        rw [CreateEnsemblePart_names hc pos, pn_insertAt_self hpos]
        exact rfl
      have hadd : AddEnsemblePart parts nm u false
          = (.installErr,
             parts1.set pos { parts1.getD pos default with usage := u }) := by
        unfold AddEnsemblePart
        rw [hc]
        rfl
      rw [hadd]
      have hsetlt : pos < parts1.length := by omega
      refine ⟨rfl, ?_, ?_⟩
      · simp only [List.length_set]
        exact hlen
      · refine ⟨{ parts1.getD pos default with usage := u }, ?_, hname⟩
        have hlen2 : pos < (parts1.set pos
            { parts1.getD pos default with usage := u }).length := by
          simp only [List.length_set]
          omega
        have hmem := getD_mem' (d := default) hlen2
        rw [getD_set_self hsetlt] at hmem
        exact hmem

/-- C5 amended, witness: a duplicate insertion into a one-part store is
rejected with the store unchanged, and a failed installation on an empty
store leaves the new part behind. -/
theorem claim_C5_amended_witness :
    AddEnsemblePart [⟨"a".toList, 1, [], false, false, false⟩] "a".toList []
        true
      = (.dupErr, [⟨"a".toList, 1, [], false, false, false⟩]) ∧
    ((AddEnsemblePart [] "b".toList [] false).1 = .installErr ∧
      (AddEnsemblePart [] "b".toList [] false).2.length
        = ([] : List EnsemblePart).length + 1 ∧
      ∃ p ∈ (AddEnsemblePart [] "b".toList [] false).2,
        p.name = "b".toList) :=
  ⟨(claim_C5_amended [⟨"a".toList, 1, [], false, false, false⟩] "a".toList []
      true).1 (by decide),
   (claim_C5_amended [] "b".toList [] false).2 (by decide)⟩

/-- C6 counterexample: in a store holding only a part named
"@errorhandler" (and hence no part named "@error"), the unknown handler
called with 3 words returns the OK redirect list instead of the bad-option
error, because the "@error" lookup matches "@errorhandler" by prefix. -/
theorem claim_C6_counterexample :
    (∀ p ∈ runInserts ["@errorhandler".toList], p.name ≠ "@error".toList) ∧
    EnsembleUnknownCmd "foo".toList [] (runInserts ["@errorhandler".toList])
        ["unk".toList, "myens".toList, "bogus".toList]
      = .ok ["myens".toList, "@error".toList, "bogus".toList] := by
  decide

/-- C6 amended: with fewer than 3 words the unknown handler errors with the
wrong-args message rendering the ensemble usage; with 3 or more words the
outcome follows the abbreviation-aware lookup of "@error": a unique match
(which may be any part extending "@error" as a prefix) gives the OK
redirect list (objv[1], "@error", objv[2]); no match gives the bad-option
error built from objv[2] and the usage; an ambiguous lookup propagates an
error with the ambiguity message. -/
theorem claim_C6_amended (rootName : List Char) (trailNames : List (List Char))
    (parts : List EnsemblePart) (objv : List (List Char)) :
    (objv.length < 3 →
      EnsembleUnknownCmd rootName trailNames parts objv
        = .err ("wrong # args: should be one of...\n".toList
            ++ GetEnsembleUsage rootName trailNames parts)) ∧
    (3 ≤ objv.length →
      (∀ p, FindEnsemblePart parts ("@error".toList) = .okPart p →
        EnsembleUnknownCmd rootName trailNames parts objv
          = .ok [objv.getD 1 [], "@error".toList, objv.getD 2 []] ∧
        p ∈ parts ∧
        strncmp ("@error".toList).length ("@error".toList) p.name = .eq) ∧
      (FindEnsemblePart parts ("@error".toList) = .okNone →
        EnsembleUnknownCmd rootName trailNames parts objv
          = .err (Itcl_EnsembleErrorCmd rootName trailNames parts
              (objv.getD 2 []))) ∧
      (∀ cands, FindEnsemblePart parts ("@error".toList) = .err cands →
        EnsembleUnknownCmd rootName trailNames parts objv
          = .err (ambiguousErrorMsg rootName trailNames ("@error".toList)
              cands))) := by
  constructor
  · intro h
    unfold EnsembleUnknownCmd
    rw [if_pos h]
  · intro h3
    have hn : ¬ objv.length < 3 := not_lt.mpr h3
    refine ⟨?_, ?_, ?_⟩
    · intro p hp
      refine ⟨?_, FindEnsemblePart_okPart hp⟩
      unfold EnsembleUnknownCmd
      rw [if_neg hn, hp]
    · intro hnone
      unfold EnsembleUnknownCmd
      rw [if_neg hn, hnone]
    · intro cands hc
      unfold EnsembleUnknownCmd
      rw [if_neg hn, hc]

/-- C6 amended, witness: a short call on an empty store, and a redirect on
a store holding an exact "@error" part. -/
theorem claim_C6_amended_witness :
    EnsembleUnknownCmd "foo".toList [] [] ["u".toList]
      = .err ("wrong # args: should be one of...\n".toList
          ++ GetEnsembleUsage "foo".toList [] []) ∧
    EnsembleUnknownCmd "foo".toList [] (runInserts ["@error".toList])
        ["u".toList, "e".toList, "x".toList]
      = .ok [["u".toList, "e".toList, "x".toList].getD 1 [], "@error".toList,
          ["u".toList, "e".toList, "x".toList].getD 2 []] :=
by
  constructor
  · exact (claim_C6_amended "foo".toList [] [] ["u".toList]).1 (by decide)
  · have hmain := (claim_C6_amended "foo".toList []
      (runInserts ["@error".toList])
      ["u".toList, "e".toList, "x".toList]).2 (by decide)
    have hp : FindEnsemblePart (runInserts ["@error".toList])
        ("@error".toList)
        = .okPart ⟨"@error".toList, 1, [], false, false, false⟩ := by decide
    have h := hmain.1 _ hp
    exact h.1

/-- C7 counterexample: deleting an ensemble (here with handle 7, no parts)
leaves its entry in the registry's handle map untouched: the map still
resolves handle 7 afterwards, a dangling entry for the destroyed record. -/
theorem claim_C7_counterexample :
    (DeleteEnsemble [(7, 1)] []).1 = some [] ∧
    (DeleteEnsemble [(7, 1)] []).2.lookup 7 = some 1 := by
  decide

/-- C7 amended: deleting an ensemble's access command deletes every part,
invoking each part's destructor exactly once, in store order (given live
part commands on a sorted store); but the registry's handle map is not
touched, so the deleted ensemble's entry remains in it. -/
theorem claim_C7_amended (registry : List (Nat × Nat))
    (parts : List EnsemblePart) (hs : SortedStore parts)
    (hv : ∀ p ∈ parts, p.cmdValid = true) :
    (DeleteEnsemble registry parts).1
      = some ((parts.filter (fun p => p.hasDeleteProc)).map (fun p => p.name)) ∧
    (DeleteEnsemble registry parts).2 = registry := by
  refine ⟨?_, rfl⟩
  unfold DeleteEnsemble
  simp only
  rw [DeleteEnsembleLoop_spec parts [] hs hv]
  simp

/-- C7 amended, witness: one ensemble with one live part with destructor. -/
theorem claim_C7_amended_witness :
    (DeleteEnsemble [(7, 1)]
        [⟨"a".toList, 1, [], false, true, true⟩]).1
      = some ((([⟨"a".toList, 1, [], false, true, true⟩] :
            List EnsemblePart).filter
          (fun p => p.hasDeleteProc)).map (fun p => p.name)) ∧
    (DeleteEnsemble [(7, 1)]
        [⟨"a".toList, 1, [], false, true, true⟩]).2 = [(7, 1)] :=
  claim_C7_amended [(7, 1)] [⟨"a".toList, 1, [], false, true, true⟩]
    (by decide) (by decide)

/-- C8: every evaluation of the ensemble verb restores the definition
parser's current-ensemble context: whatever the argument checks, the
ensemble resolution and the nested body evaluation do (including reentrant
ensemble definitions that overwrite the context), ensInfo->ensData after
Itcl_EnsembleCmd equals its value before the call. -/
theorem claim_C8 {E σ : Type} (resolve : EnsContext E σ → Option E)
    (evalBody : EnsContext E σ → EnsContext E σ × Bool)
    (ctx : EnsContext E σ) :
    ((Itcl_EnsembleCmd resolve evalBody ctx).1).ensData = ctx.ensData := by
  unfold Itcl_EnsembleCmd
  cases resolve ctx with
  | none => rfl
  | some e => rfl

/-- C9: the probing lookups return success or failure as an option, and on
every failure path the interpreter state handed back is exactly the state
saved on entry, whatever the host steps did to it meanwhile: no error trace
escapes Itcl_GetEnsemblePart or Itcl_GetEnsembleUsage. -/
theorem claim_C9 {σ α ε π κ : Type} (splitList : σ → σ × Option α)
    (findEnsemble : σ → α → σ × Option ε) (findPart : σ → ε → σ × Option π)
    (getCmdInfo : π → Option κ)
    (findEnsembleU :
      σ → α → σ × Option (List Char × List (List Char) × List EnsemblePart))
    (objPtr : List Char) (s0 : σ) :
    ((Itcl_GetEnsemblePart splitList findEnsemble findPart getCmdInfo s0).2
        = none →
      (Itcl_GetEnsemblePart splitList findEnsemble findPart getCmdInfo s0).1
        = s0) ∧
    ((Itcl_GetEnsembleUsage splitList findEnsembleU objPtr s0).2 = none →
      (Itcl_GetEnsembleUsage splitList findEnsembleU objPtr s0).1 = s0) := by
  constructor
  · have key :
        (Itcl_GetEnsemblePart splitList findEnsemble findPart getCmdInfo
          s0).1 = s0 ∨
        (Itcl_GetEnsemblePart splitList findEnsemble findPart getCmdInfo
          s0).2 ≠ none := by
      simp only [Itcl_GetEnsemblePart]
      split
      · left
        rfl
      · split
        · left
          rfl
        · split
          · left
            rfl
          · split
            · left
              rfl
            · right
              simp
    intro h
    rcases key with hk | hk
    · exact hk
    · exact absurd h hk
  · have key : (Itcl_GetEnsembleUsage splitList findEnsembleU objPtr s0).1
        = s0 ∨
        (Itcl_GetEnsembleUsage splitList findEnsembleU objPtr s0).2 ≠ none := by
      simp only [Itcl_GetEnsembleUsage]
      split
      · left
        rfl
      · split
        · left
          rfl
        · right
          simp
    intro h
    rcases key with hk | hk
    · exact hk
    · exact absurd h hk

/-- C9 witness: a failing split step on a state the step mutates. -/
theorem claim_C9_witness :
    (Itcl_GetEnsemblePart (fun s : Nat => (s + 1, (none : Option Unit)))
      (fun s _ => (s, (none : Option Unit)))
      (fun s _ => (s, (none : Option Unit)))
      (fun _ => (none : Option Unit)) 0).1 = 0 ∧
    (Itcl_GetEnsembleUsage (fun s : Nat => (s + 1, (none : Option Unit)))
      (fun s _ => (s, none)) [] 0).1 = 0 :=
  ⟨(claim_C9 (fun s : Nat => (s + 1, (none : Option Unit)))
      (fun s _ => (s, (none : Option Unit)))
      (fun s _ => (s, (none : Option Unit)))
      (fun _ => (none : Option Unit))
      (fun s _ => (s, none)) [] 0).1 rfl,
   (claim_C9 (fun s : Nat => (s + 1, (none : Option Unit)))
      (fun s _ => (s, (none : Option Unit)))
      (fun s _ => (s, (none : Option Unit)))
      (fun _ => (none : Option Unit))
      (fun s _ => (s, none)) [] 0).2 rfl⟩

/-- C10: the rendered usage summary lists the parts in store order, one per
line after the first (two leading spaces, then newline + two spaces
between entries), with a part named "@error" omitted but forcing the
trailing man-page line, a part named "@itcl-builtin_info" always omitted,
and every other part rendered exactly once. -/
theorem claim_C10 (rootName : List Char) (trailNames : List (List Char))
    (parts : List EnsemblePart) :
    GetEnsembleUsage rootName trailNames parts
      = renderEnsembleSpec rootName trailNames parts :=
  GetEnsembleUsage_eq_spec rootName trailNames parts

end Claims

end Itcl
